import Mathlib

/-!
# Verification of the S4 numerical core (annotated-s4, `s4/s4.py`)

This file gives a shallow embedding, over exact complex/real arithmetic, of the
numerical core of the S4 implementation: the bilinear discretizer, the naive
convolution-kernel oracle, the Cauchy-dot generating function for a DPLR
transition operator, the roots-of-unity / inverse-DFT kernel recovery, the
HiPPO matrices, and the sequence transformer.  Floating-point arrays become
functions `Fin N → ℂ` (or `ℝ`), `jax.numpy` matrix operations become `Matrix`
operations, and `np.fft.ifft` becomes the explicit finite exponential sum it
computes.  Theorems about these definitions settle the specification claims.
-/

open scoped BigOperators
open Complex Matrix Finset

namespace S4

noncomputable section

/-- Bilinear (Tustin) discretization of a continuous SSM, from `discretize`
(s4.py lines 92-97): `BL = inv(I - (step/2) A)`, `Abar = BL (I + (step/2) A)`,
`Bbar = (BL * step) B`, and `C` is returned unchanged.  `B` and `C` are kept as
vectors (the source's N×1 and 1×N arrays, ravelled). -/
def discretize {N : ℕ} (A : Matrix (Fin N) (Fin N) ℂ) (B : Fin N → ℂ) (C : Fin N → ℂ)
    (step : ℂ) : Matrix (Fin N) (Fin N) ℂ × (Fin N → ℂ) × (Fin N → ℂ) :=
  let BL := ((1 : Matrix (Fin N) (Fin N) ℂ) - (step / 2) • A)⁻¹
  (BL * ((1 : Matrix (Fin N) (Fin N) ℂ) + (step / 2) • A), (step • BL).mulVec B, C)

/-- Naive convolution-kernel oracle, from `K_conv` (s4.py lines 231-232):
`K[l] = C @ matrix_power(A, l) @ B`. -/
def K_conv {N : ℕ} (A : Matrix (Fin N) (Fin N) ℂ) (B C : Fin N → ℂ) (L : ℕ) :
    Fin L → ℂ :=
  fun l => C ⬝ᵥ (A ^ (l : ℕ)).mulVec B

/-- Cauchy dot product, from `cauchy_dot` (s4.py lines 457-459):
`(v / (omega - lambd)).sum()`. -/
def cauchy_dot {N : ℕ} (v : Fin N → ℂ) (omega : ℂ) (lambd : Fin N → ℂ) : ℂ :=
  ∑ i, v i / (omega - lambd i)

/-- The bilinear change of variable `g` used in `K_gen_DPLR` (s4.py line 493):
`g = (2.0 / step) * ((1.0 - o) / (1.0 + o))`. -/
def gBilin (step o : ℂ) : ℂ := (2 / step) * ((1 - o) / (1 + o))

/-- The scalar factor `c` used in `K_gen_DPLR` (s4.py line 494):
`c = 2.0 / (1.0 + o)`. -/
def cBilin (o : ℂ) : ℂ := 2 / (1 + o)

/-- The DPLR generating function, from `K_gen_DPLR` (s4.py lines 488-502).
`aterm = (conj Ct, conj q)`, `bterm = (B, p)`, and
`gen o = c * (k00 - k01 * (1/(1+k11)) * k10)` with the four Cauchy dots
`k00 = k(conj Ct * B)`, `k01 = k(conj Ct * p)`, `k10 = k(conj q * B)`,
`k11 = k(conj q * p)` evaluated at `g`. -/
def K_gen_DPLR {N : ℕ} (Lambda p q B Ct : Fin N → ℂ) (step : ℂ) : ℂ → ℂ :=
  fun o =>
    let g := gBilin step o
    let c := cBilin o
    let k00 := cauchy_dot (fun i => star (Ct i) * B i) g Lambda
    let k01 := cauchy_dot (fun i => star (Ct i) * p i) g Lambda
    let k10 := cauchy_dot (fun i => star (q i) * B i) g Lambda
    let k11 := cauchy_dot (fun i => star (q i) * p i) g Lambda
    c * (k00 - k01 * (1 / (1 + k11)) * k10)

/-- The truncated generating function of a real kernel, i.e. the function
`lambda z: np.sum(K * (z ** np.arange(L)))` that `K_gen_simple`
(s4.py lines 369-371) builds from the length-`L` kernel `K`. -/
def K_gen_simple {L : ℕ} (K : Fin L → ℝ) : ℂ → ℂ :=
  fun z => ∑ l : Fin L, (K l : ℂ) * z ^ (l : ℕ)

/-- The `j`-th of the `L`-th roots of unity sampled by `convFromGen`
(s4.py line 387): `exp((2j*pi/L) * j)`. -/
def rootOfUnity (L : ℕ) (j : ℕ) : ℂ :=
  Complex.exp (2 * Real.pi * Complex.I / L * j)

/-- The primitive `L`-th root of unity `exp(2*pi*i/L)`; `rootOfUnity L j` is
its `j`-th power. -/
def zetaL (L : ℕ) : ℂ := Complex.exp (2 * Real.pi * Complex.I / L)

/-- Size-`L` inverse discrete Fourier transform, the exponential sum computed
by `np.fft.ifft(a, L)` (used at s4.py line 390):
`out[n] = (1/L) * sum_j a[j] * exp(2*pi*i*j*n/L)`. -/
def ifft {L : ℕ} (a : Fin L → ℂ) (n : ℕ) : ℂ :=
  (1 / (L : ℂ)) * ∑ j : Fin L, a j * Complex.exp (2 * Real.pi * Complex.I / L * (j * n))

/-- Kernel recovery from a generating function, from `convFromGen`
(s4.py lines 385-393): sample `gen` at the `L`-th roots of unity, apply the
inverse DFT, reorder (`order = [i if i == 0 else L - i]`, realised here as
`(L - i) % L`), and keep the real part. -/
def convFromGen (gen : ℂ → ℂ) (L : ℕ) : Fin L → ℝ :=
  fun i => (ifft (fun j : Fin L => gen (rootOfUnity L j)) ((L - (i : ℕ)) % L)).re

/-- The imaginary component that `convFromGen` discards when it takes `.real`
of the reordered inverse DFT (s4.py line 393). -/
def convFromGenImag (gen : ℂ → ℂ) (L : ℕ) : Fin L → ℝ :=
  fun i => (ifft (fun j : Fin L => gen (rootOfUnity L j)) ((L - (i : ℕ)) % L)).im

/-- The DPLR transition operator assembled in `S4LayerInit` (s4.py line 597):
`A = diag(Lambda) - p[:, None] @ q[:, None].conj().T`. -/
def dplrA {N : ℕ} (Lambda p q : Fin N → ℂ) : Matrix (Fin N) (Fin N) ℂ :=
  Matrix.diagonal Lambda - Matrix.of fun i j => p i * star (q j)

/-- The corrected output vector from `S4Layer.setup` (s4.py line 569):
`Ct = (I - matrix_power(Abar, L)).conj().T @ Cbar`. -/
def Ct_of {N : ℕ} (Abar : Matrix (Fin N) (Fin N) ℂ) (Cbar : Fin N → ℂ) (L : ℕ) :
    Fin N → ℂ :=
  ((1 - Abar ^ L)ᴴ).mulVec Cbar

/-- The fast kernel computed by `S4Layer.setup` (s4.py lines 560-571):
discretize the DPLR operator, absorb the boundary correction `(I - Abar^L)`
into `Ct`, build the DPLR generating function and recover the kernel through
the roots of unity.  `B` and `C` are the real learned parameters.  This
exact-arithmetic composite is faithful to the float program at every sample
with `1 + z ≠ 0`; for even `L` it evaluates `K_gen_DPLR` at exactly `-1`,
which the float program never does — see `K_gen_DPLR_sampled` and
`S4_fast_kernel_sampled` for the composite with that one sample modelled as
the program computes it. -/
def S4_fast_kernel {N : ℕ} (Lambda p q : Fin N → ℂ) (B C : Fin N → ℝ) (step : ℝ)
    (L : ℕ) : Fin L → ℝ :=
  let A := dplrA Lambda p q
  let d := discretize A (fun i => (B i : ℂ)) (fun i => (C i : ℂ)) (step : ℂ)
  let Ct := Ct_of d.1 d.2.2 L
  convFromGen (K_gen_DPLR Lambda p q (fun i => (B i : ℂ)) Ct (step : ℂ)) L

/-- The naive oracle kernel for the same discretized SSM: `K_conv` applied to
the output of `discretize` (as in `NaiveSSMLayer.setup`, s4.py lines 316-317). -/
def S4_naive_kernel {N : ℕ} (Lambda p q : Fin N → ℂ) (B C : Fin N → ℝ) (step : ℝ)
    (L : ℕ) : Fin L → ℂ :=
  let A := dplrA Lambda p q
  let d := discretize A (fun i => (B i : ℂ)) (fun i => (C i : ℂ)) (step : ℂ)
  K_conv d.1 d.2.1 d.2.2 L

/-- The HiPPO matrix, from `make_HiPPO` (s4.py lines 279-290).  The source
iterates `n, k` over `range(1, N+1)`; here `i, j : Fin N` are the 0-based
indices, so the 1-based indices are `i+1, j+1`. -/
def make_HiPPO (N : ℕ) : Matrix (Fin N) (Fin N) ℝ :=
  Matrix.of fun i j =>
    if (j : ℕ) + 1 < (i : ℕ) + 1 then
      Real.sqrt (2 * ((i : ℕ) + 1) + 1) * Real.sqrt (2 * ((j : ℕ) + 1) + 1)
    else if (i : ℕ) + 1 = (j : ℕ) + 1 then (((i : ℕ) + 1 : ℕ) : ℝ) + 1
    else 0

/-- The square-root weight vector `p = sqrt(2*arange(1, N+1) + 1.0)` built at
the top of `make_DPLR_HiPPO` (s4.py line 529); the source sets `q = p`. -/
def hippo_p (N : ℕ) : Fin N → ℝ := fun i => Real.sqrt (2 * ((i : ℕ) + 1) + 1)

/-- The rank-one grid `pq = p[:, None] * q[None, :]` (s4.py line 531). -/
def hippo_pq (N : ℕ) : Matrix (Fin N) (Fin N) ℝ :=
  Matrix.of fun i j => hippo_p N i * hippo_p N j

/-- The `hippo` local of `make_DPLR_HiPPO` (s4.py line 532):
`-np.tril(pq, k=-1) - np.diag(np.arange(1, N+1) + 1)`. -/
def hippo_mat (N : ℕ) : Matrix (Fin N) (Fin N) ℝ :=
  Matrix.of fun i j =>
    (if (j : ℕ) < (i : ℕ) then -(hippo_p N i * hippo_p N j) else 0) +
      (if i = j then -((((i : ℕ) + 1 : ℕ) : ℝ) + 1) else 0)

/-- The skew-symmetric companion `S = hippo + (0.5 * pq + 0.5 * eye N)` that
`make_DPLR_HiPPO` eigendecomposes (s4.py line 534). -/
def S_mat (N : ℕ) : Matrix (Fin N) (Fin N) ℝ :=
  hippo_mat N + ((1 / 2 : ℝ) • hippo_pq N + (1 / 2 : ℝ) • 1)

/-- The matrix `S_mat` viewed over `ℂ`, the field in which `eig_cpu` (s4.py line 536)
returns its eigenvalues. -/
def S_matC (N : ℕ) : Matrix (Fin N) (Fin N) ℂ :=
  (S_mat N).map fun x : ℝ => (x : ℂ)

/-- The matrix `make_HiPPO N` viewed over `ℂ`, for spectral statements. -/
def make_HiPPOC (N : ℕ) : Matrix (Fin N) (Fin N) ℂ :=
  (make_HiPPO N).map fun x : ℝ => (x : ℂ)

/-- Zero-padded access to a finite sequence (out-of-range reads give `0`,
matching how `jax.scipy.signal.convolve` treats samples beyond the arrays). -/
def pad {L : ℕ} (u : Fin L → ℝ) (t : ℕ) : ℝ :=
  if h : t < L then u ⟨t, h⟩ else 0

/-- Full linear convolution truncated to the input length, from
`nonCircularConvolution` (s4.py lines 241-242):
`convolve(u, K, mode="full")[: u.shape[0]]`.  Sample `n` of the full
convolution of `u` with `K` is `sum_{t=0}^{n} u[t] * K[n-t]` (out-of-range
factors are `0`); the slice keeps samples `n < L`. -/
def nonCircularConvolution {L : ℕ} (u K : Fin L → ℝ) : Fin L → ℝ :=
  fun l => ∑ t ∈ Finset.range ((l : ℕ) + 1), pad u t * pad K ((l : ℕ) - t)

/-- The sequence transformer `y = nonCircularConvolution(u, K) + D * u`, from
`S4Layer.__call__` / `NaiveSSMLayer.__call__` (s4.py lines 319-320, 573-574). -/
def sequenceTransform {L : ℕ} (u K : Fin L → ℝ) (D : ℝ) : Fin L → ℝ :=
  fun l => nonCircularConvolution u K l + D * u l

/-! ## Shape-checked array model

The typed definitions above fix all dimensions in advance, so they cannot
express what the source does on mismatched arrays.  `RMat` models a real
`numpy`/`jax` 2-d array as a pair of dimensions plus an entry function, and the
checked operations reject exactly the shape combinations the library rejects
(matrix product with unequal inner dimensions, elementwise sum of unequal
shapes, inversion of a non-square matrix).  `jax.numpy.linalg.inv` raises no
error on a singular square matrix — it returns non-finite garbage — so
`rinvE` models it as total on square matrices, with Mathlib's junk value for a
singular input. -/

/-- A real matrix of runtime-determined shape: `rows × cols`, entries read
through a total function (reads outside the shape are irrelevant). -/
structure RMat where
  rows : ℕ
  cols : ℕ
  entry : ℕ → ℕ → ℝ

/-- Numerical errors the array library can raise. -/
inductive NumErr where
  | dimMismatch : NumErr
  | nonSquare : NumErr
deriving DecidableEq

/-- The identity `np.eye n`. -/
def eyeE (n : ℕ) : RMat :=
  ⟨n, n, fun i j => if i = j then 1 else 0⟩

/-- Scalar multiplication `c * A` (elementwise; never fails). -/
def smulE (c : ℝ) (A : RMat) : RMat :=
  ⟨A.rows, A.cols, fun i j => c * A.entry i j⟩

/-- Elementwise difference `A - B`, rejecting mismatched shapes. -/
def subE (A B : RMat) : Except NumErr RMat :=
  if A.rows = B.rows ∧ A.cols = B.cols then
    Except.ok ⟨A.rows, A.cols, fun i j => A.entry i j - B.entry i j⟩
  else Except.error NumErr.dimMismatch

/-- Elementwise sum `A + B`, rejecting mismatched shapes. -/
def addE (A B : RMat) : Except NumErr RMat :=
  if A.rows = B.rows ∧ A.cols = B.cols then
    Except.ok ⟨A.rows, A.cols, fun i j => A.entry i j + B.entry i j⟩
  else Except.error NumErr.dimMismatch

/-- Matrix product `A @ B`, rejecting unequal contracting dimensions exactly as
`jax.numpy` matmul does. -/
def matmulE (A B : RMat) : Except NumErr RMat :=
  if A.cols = B.rows then
    Except.ok ⟨A.rows, B.cols, fun i j => ∑ t ∈ Finset.range A.cols, A.entry i t * B.entry t j⟩
  else Except.error NumErr.dimMismatch

/-- Model of `jax.numpy.linalg.inv`: it requires a square argument, but performs no
singularity check — a singular input silently yields a garbage value (here
Mathlib's convention, `A⁻¹ = 0`; in `jax`, non-finite entries). -/
def rinvE (A : RMat) : Except NumErr RMat :=
  if A.rows = A.cols then
    Except.ok ⟨A.rows, A.rows, fun i j =>
      if hi : i < A.rows then
        if hj : j < A.rows then
          (Matrix.of fun a b : Fin A.rows => A.entry (a : ℕ) (b : ℕ))⁻¹ ⟨i, hi⟩ ⟨j, hj⟩
        else 0
      else 0⟩
  else Except.error NumErr.nonSquare

/-- The function `discretize` over runtime-shaped arrays, performing each operation of
s4.py lines 92-97 in source order with the library's shape checks:
`I = eye(A.rows)`, `BL = inv(I - (step/2) * A)`, `Abar = BL @ (I + (step/2) * A)`,
`Bbar = (BL * step) @ B`; `C` is passed through untouched.  The source has no
validation of its own: every error comes from the array operations
themselves. -/
def discretizeE (A B C : RMat) (step : ℝ) : Except NumErr (RMat × RMat × RMat) :=
  (subE (eyeE A.rows) (smulE (step / 2) A)).bind fun S1 =>
    (rinvE S1).bind fun BL =>
      (addE (eyeE A.rows) (smulE (step / 2) A)).bind fun S2 =>
        (matmulE BL S2).bind fun Abar =>
          (matmulE (smulE step BL) B).bind fun Bbar =>
            Except.ok (Abar, Bbar, C)

/-- The spec's Cauchy dot product of a *pair* of vectors,
`k(u, v) = sum_i u_i * v_i / (g - Lambda_i)` (spec section 4.3). -/
def kSpec {N : ℕ} (u v : Fin N → ℂ) (g : ℂ) (Lambda : Fin N → ℂ) : ℂ :=
  ∑ i, u i * v i / (g - Lambda i)

/-- Proof auxiliary: the explicit solution of `(g·I - (diag Λ - p q*)) x = B`
given by the Woodbury identity — the vector the four Cauchy dot products of
`K_gen_DPLR` implicitly apply to `B`. -/
def woodburyX {N : ℕ} (Lambda p q : Fin N → ℂ) (g : ℂ) (Bv : Fin N → ℂ) : Fin N → ℂ :=
  fun i => Bv i / (g - Lambda i) -
    cauchy_dot (fun k => star (q k) * Bv k) g Lambda /
        (1 + cauchy_dot (fun k => star (q k) * p k) g Lambda) * (p i / (g - Lambda i))

/-- Proof auxiliary: the denominator of the bilinear Cauchy term of
`K_gen_DPLR` after the factor `1 + o` has been cancelled: for `1 + o ≠ 0`,
`cBilin o / (gBilin step o - Lambda i)` equals `2 / phiDenom Lambda step i o`
(theorem `K_gen_DPLR_eq_reg`). -/
def phiDenom {N : ℕ} (Lambda : Fin N → ℂ) (step : ℂ) (i : Fin N) (o : ℂ) : ℂ :=
  2 / step * (1 - o) - Lambda i * (1 + o)

/-- Proof auxiliary: the DPLR generating function rewritten over the cleared
denominators `phiDenom`.  It agrees with `K_gen_DPLR` wherever `1 + o ≠ 0`
(theorem `K_gen_DPLR_eq_reg`), and unlike
the raw parametrization through `g` and `c` it is continuous at `o = -1`,
exposing the removable singularity of `K_gen_DPLR` there. -/
def K_gen_DPLR_reg {N : ℕ} (Lambda p q B Ct : Fin N → ℂ) (step : ℂ) : ℂ → ℂ :=
  fun o =>
    (∑ i, star (Ct i) * B i * (2 / phiDenom Lambda step i o)) -
      (∑ i, star (Ct i) * p i * (2 / phiDenom Lambda step i o)) *
        (1 / (1 + (1 + o) / 2 * ∑ i, star (q i) * p i * (2 / phiDenom Lambda step i o))) *
        ((1 + o) / 2 * ∑ i, star (q i) * B i * (2 / phiDenom Lambda step i o))

/-- Modelled from the spec: the generating-function sample the program takes
at a root of unity `o` with `1 + o = 0`.  The code samples
`Omega_L = exp((2j*np.pi/L) * np.arange(L))` in floating point (s4.py line
387), so for even `L` the sample at `j = L/2` is never exactly `-1` (the
imaginary part of the float `exp(i*pi)` is the rounding of `sin(pi)`, about
`1.22e-16`, never `0`), and `K_gen_DPLR` is evaluated just off the removable
singularity of its bilinear parametrization at `-1`: the value computed is
the limit of `K_gen_DPLR` there, which equals
`step/2 * sum_i conj(Ct i) * B i` (theorem `K_gen_DPLR_tendsto_neg_one`).
An exact-arithmetic evaluation of `K_gen_DPLR` at `-1` itself would instead
hit divisions by `1 + o = 0` that the float program never performs.  At
every sample with `1 + o ≠ 0` this definition is exactly `K_gen_DPLR`. -/
def K_gen_DPLR_sampled {N : ℕ} (Lambda p q B Ct : Fin N → ℂ) (step : ℂ) : ℂ → ℂ :=
  fun o =>
    if 1 + o = 0 then step / 2 * ∑ i, star (Ct i) * B i
    else K_gen_DPLR Lambda p q B Ct step o

/-- The fast kernel computed by `S4Layer.setup` (s4.py lines 560-571), with
the generating function sampled as the float program samples it
(`K_gen_DPLR_sampled`): discretize the DPLR operator, absorb the boundary
correction `(I - Abar^L)` into `Ct`, build the DPLR generating function and
recover the kernel through the roots of unity.  `B` and `C` are the real
learned parameters. -/
def S4_fast_kernel_sampled {N : ℕ} (Lambda p q : Fin N → ℂ) (B C : Fin N → ℝ)
    (step : ℝ) (L : ℕ) : Fin L → ℝ :=
  let A := dplrA Lambda p q
  let d := discretize A (fun i => (B i : ℂ)) (fun i => (C i : ℂ)) (step : ℂ)
  let Ct := Ct_of d.1 d.2.2 L
  convFromGen (K_gen_DPLR_sampled Lambda p q (fun i => (B i : ℂ)) Ct (step : ℂ)) L

end

/-- C4: For every `A`, `B`, `C` and step with `I - (step/2)·A` invertible,
`discretize` returns exactly `(M · (I + (step/2)·A), (M · step) · B, C)` where
`M` is the genuine inverse of `I - (step/2)·A` (first conjunct), and `C` comes
back unchanged. -/
theorem discretize_spec {N : ℕ} (A : Matrix (Fin N) (Fin N) ℂ) (B C : Fin N → ℂ)
    (step : ℂ)
    (h : IsUnit ((1 : Matrix (Fin N) (Fin N) ℂ) - (step / 2) • A).det) :
    ((1 : Matrix (Fin N) (Fin N) ℂ) - (step / 2) • A) *
        ((1 : Matrix (Fin N) (Fin N) ℂ) - (step / 2) • A)⁻¹ = 1 ∧
      discretize A B C step =
        (((1 : Matrix (Fin N) (Fin N) ℂ) - (step / 2) • A)⁻¹ *
            ((1 : Matrix (Fin N) (Fin N) ℂ) + (step / 2) • A),
          (step • ((1 : Matrix (Fin N) (Fin N) ℂ) - (step / 2) • A)⁻¹).mulVec B, C) :=
  ⟨Matrix.mul_nonsing_inv _ h, rfl⟩

/-- Witness for `discretize_spec`: `N = 1`, `A = 0`, `B = C = 1`, `step = 1`. -/
theorem discretize_spec_witness :
    IsUnit ((1 : Matrix (Fin 1) (Fin 1) ℂ) - ((1 : ℂ) / 2) • (0 : Matrix (Fin 1) (Fin 1) ℂ)).det ∧
      (((1 : Matrix (Fin 1) (Fin 1) ℂ) - ((1 : ℂ) / 2) • (0 : Matrix (Fin 1) (Fin 1) ℂ)) *
          ((1 : Matrix (Fin 1) (Fin 1) ℂ) - ((1 : ℂ) / 2) • (0 : Matrix (Fin 1) (Fin 1) ℂ))⁻¹ = 1 ∧
        discretize (0 : Matrix (Fin 1) (Fin 1) ℂ) (fun _ => 1) (fun _ => 1) 1 =
          (((1 : Matrix (Fin 1) (Fin 1) ℂ) - ((1 : ℂ) / 2) • (0 : Matrix (Fin 1) (Fin 1) ℂ))⁻¹ *
              ((1 : Matrix (Fin 1) (Fin 1) ℂ) + ((1 : ℂ) / 2) • (0 : Matrix (Fin 1) (Fin 1) ℂ)),
            ((1 : ℂ) • ((1 : Matrix (Fin 1) (Fin 1) ℂ) -
              ((1 : ℂ) / 2) • (0 : Matrix (Fin 1) (Fin 1) ℂ))⁻¹).mulVec (fun _ => 1), fun _ => 1)) := by
  have h : IsUnit ((1 : Matrix (Fin 1) (Fin 1) ℂ) -
      ((1 : ℂ) / 2) • (0 : Matrix (Fin 1) (Fin 1) ℂ)).det := by
    simp
  exact ⟨h, discretize_spec (0 : Matrix (Fin 1) (Fin 1) ℂ) (fun _ => 1) (fun _ => 1) 1 h⟩

/-- C2, counterexample: At `N = 1`, `Lambda = 0`, `p = q = 0`, `B = 1`,
`Ct = i`, `step = 2`, `z = 0` — an input satisfying every hypothesis of the
claim — the generating function returned by `K_gen_DPLR` is `-2i`, while the
claim's formula `c(z)·[k(C̃,B) - k(C̃,p)·(1+k(q*,p))⁻¹·k(q*,B)]` with the `Ct`
argument *not* conjugated gives `2i`: the code conjugates `Ct` (line 489). -/
theorem K_gen_DPLR_claim_counterexample :
    (0 : ℝ) < 2 ∧ (1 : ℂ) + 0 ≠ 0 ∧ (∀ i : Fin 1, gBilin 2 0 ≠ (fun _ : Fin 1 => (0 : ℂ)) i) ∧
      K_gen_DPLR (fun _ : Fin 1 => 0) (fun _ => 0) (fun _ => 0) (fun _ => 1)
          (fun _ => Complex.I) 2 0 ≠
        cBilin 0 *
          (kSpec (fun _ : Fin 1 => Complex.I) (fun _ => 1) (gBilin 2 0) (fun _ => 0) -
            kSpec (fun _ : Fin 1 => Complex.I) (fun _ => 0) (gBilin 2 0) (fun _ => 0) *
              (1 + kSpec (fun _ : Fin 1 => star ((0 : ℂ))) (fun _ => 0) (gBilin 2 0)
                  (fun _ => 0))⁻¹ *
              kSpec (fun _ : Fin 1 => star ((0 : ℂ))) (fun _ => 1) (gBilin 2 0)
                (fun _ => 0)) := by
  refine ⟨by norm_num, by norm_num, ?_, ?_⟩
  · intro i
    simp [gBilin]
  · have hL : K_gen_DPLR (fun _ : Fin 1 => 0) (fun _ => 0) (fun _ => 0) (fun _ => 1)
        (fun _ => Complex.I) 2 0 = -(2 * Complex.I) := by
      simp [K_gen_DPLR, cauchy_dot, gBilin, cBilin, Fin.sum_univ_one, Complex.star_def,
        Complex.conj_I]
    have hR : cBilin 0 *
        (kSpec (fun _ : Fin 1 => Complex.I) (fun _ => 1) (gBilin 2 0) (fun _ => 0) -
          kSpec (fun _ : Fin 1 => Complex.I) (fun _ => 0) (gBilin 2 0) (fun _ => 0) *
            (1 + kSpec (fun _ : Fin 1 => star ((0 : ℂ))) (fun _ => 0) (gBilin 2 0)
                (fun _ => 0))⁻¹ *
            kSpec (fun _ : Fin 1 => star ((0 : ℂ))) (fun _ => 1) (gBilin 2 0)
              (fun _ => 0)) = 2 * Complex.I := by
      simp [kSpec, cBilin, gBilin, Fin.sum_univ_one]
    rw [hL, hR]
    intro hcontra
    have h4 : (4 : ℂ) * Complex.I = 0 := by linear_combination -hcontra
    simp [Complex.ext_iff] at h4

/-- C2, amended: For every `Lambda, p, q, B, Ct`, positive step and `z`
with `1 + z ≠ 0` and `g(z)` avoiding every `Lambda i`, `K_gen_DPLR` evaluates
to `c(z)·[k(C̃*,B) - k(C̃*,p)·(1+k(q*,p))⁻¹·k(q*,B)]`, where `C̃*` is the
elementwise conjugate of the `Ct` argument and `g, c, k` are as in the claim. -/
theorem K_gen_DPLR_closed_form {N : ℕ} (Lambda p q B Ct : Fin N → ℂ) (step : ℝ)
    (_hstep : 0 < step) (z : ℂ) (_hz : (1 : ℂ) + z ≠ 0)
    (_hpole : ∀ i, gBilin (step : ℂ) z ≠ Lambda i) :
    K_gen_DPLR Lambda p q B Ct (step : ℂ) z =
      cBilin z *
        (kSpec (fun i => star (Ct i)) B (gBilin (step : ℂ) z) Lambda -
          kSpec (fun i => star (Ct i)) p (gBilin (step : ℂ) z) Lambda *
            (1 + kSpec (fun i => star (q i)) p (gBilin (step : ℂ) z) Lambda)⁻¹ *
            kSpec (fun i => star (q i)) B (gBilin (step : ℂ) z) Lambda) := by
  simp [K_gen_DPLR, kSpec, cauchy_dot, one_div]

/-- Witness for `K_gen_DPLR_closed_form`: `N = 1`, `Lambda = 0`, `p = q = 0`,
`B = Ct = 1`, `step = 2`, `z = 0`. -/
theorem K_gen_DPLR_closed_form_witness :
    ((0 : ℝ) < 2 ∧ (1 : ℂ) + 0 ≠ 0 ∧ ∀ i : Fin 1, gBilin ((2 : ℝ) : ℂ) 0 ≠ (fun _ : Fin 1 => (0 : ℂ)) i) ∧
      K_gen_DPLR (fun _ : Fin 1 => 0) (fun _ => 0) (fun _ => 0) (fun _ => 1)
          (fun _ => 1) ((2 : ℝ) : ℂ) 0 =
        cBilin 0 *
          (kSpec (fun i : Fin 1 => star ((fun _ : Fin 1 => (1 : ℂ)) i)) (fun _ => 1)
              (gBilin ((2 : ℝ) : ℂ) 0) (fun _ => 0) -
            kSpec (fun i : Fin 1 => star ((fun _ : Fin 1 => (1 : ℂ)) i)) (fun _ => 0)
                (gBilin ((2 : ℝ) : ℂ) 0) (fun _ => 0) *
              (1 + kSpec (fun i : Fin 1 => star ((fun _ : Fin 1 => (0 : ℂ)) i)) (fun _ => 0)
                  (gBilin ((2 : ℝ) : ℂ) 0) (fun _ => 0))⁻¹ *
              kSpec (fun i : Fin 1 => star ((fun _ : Fin 1 => (0 : ℂ)) i)) (fun _ => 1)
                (gBilin ((2 : ℝ) : ℂ) 0) (fun _ => 0)) := by
  have hpole : ∀ i : Fin 1, gBilin ((2 : ℝ) : ℂ) 0 ≠ (fun _ : Fin 1 => (0 : ℂ)) i := by
    intro i
    simp [gBilin]
  exact ⟨⟨by norm_num, by norm_num, hpole⟩,
    K_gen_DPLR_closed_form (fun _ : Fin 1 => 0) (fun _ => 0) (fun _ => 0) (fun _ => 1)
      (fun _ => 1) 2 (by norm_num) 0 (by norm_num) hpole⟩

/-- C6: The sequence transformer `y = nonCircularConvolution(u, K) + D·u`
maps equal-length real sequences to a sequence of the same length (the index
type `Fin L` is preserved), with `y[l] = sum_{t=0}^{l} K[t]·u[l-t] + D·u[l]`
for every `l` — in particular `y[0] = K[0]·u[0] + D·u[0]`.  It is a pure
function of its inputs. -/
theorem sequenceTransform_spec {L : ℕ} (u K : Fin L → ℝ) (D : ℝ) (l : Fin L) :
    sequenceTransform u K D l =
      (∑ t ∈ Finset.range ((l : ℕ) + 1), pad K t * pad u ((l : ℕ) - t)) + D * u l := by
  rw [sequenceTransform, nonCircularConvolution]
  congr 1
  rw [← Finset.sum_range_reflect]
  refine Finset.sum_congr rfl fun t ht => ?_
  rw [Finset.mem_range] at ht
  have h1 : (l : ℕ) + 1 - 1 - t = (l : ℕ) - t := by omega
  have h2 : (l : ℕ) - ((l : ℕ) - t) = t := by omega
  rw [h1, h2, mul_comm]

/-! ## Roots of unity and the inverse DFT round trip -/

/-- Each `rootOfUnity L j` is the `j`-th power of the primitive root `zetaL L`. -/
theorem rootOfUnity_eq_pow (L : ℕ) (j : ℕ) : rootOfUnity L j = zetaL L ^ j := by
  rw [rootOfUnity, zetaL, ← Complex.exp_nat_mul]
  congr 1
  ring

/-- The exponential factor used by `ifft` is also a power of `zetaL L`. -/
theorem ifft_exp_eq_pow (L : ℕ) (j n : ℕ) :
    Complex.exp (2 * Real.pi * Complex.I / L * ((j : ℂ) * (n : ℂ))) = zetaL L ^ (j * n) := by
  rw [zetaL, ← Complex.exp_nat_mul]
  congr 1
  push_cast
  ring

/-- Finite geometric sum of powers of an `L`-th root of unity. -/
theorem sum_pow_eq_ite {L : ℕ} (u : ℂ) (hu : u ^ L = 1) :
    ∑ j : Fin L, u ^ (j : ℕ) = if u = 1 then (L : ℂ) else 0 := by
  rw [Fin.sum_univ_eq_sum_range]
  by_cases h : u = 1
  · simp [h]
  · rw [if_neg h, geom_sum_eq h, hu]
    simp

/-- Applying the size-`L` inverse DFT to the values of the truncated
generating series of `K` at the roots of unity, at reordered index
`(L - i) % L`, gives back `K i`. -/
theorem ifft_gen_eq {L : ℕ} (K : Fin L → ℂ) (i : Fin L) :
    ifft (fun j : Fin L => ∑ l : Fin L, K l * zetaL L ^ ((j : ℕ) * (l : ℕ)))
      ((L - (i : ℕ)) % L) = K i := by
  have hL : 0 < L := i.pos
  have hprim : IsPrimitiveRoot (zetaL L) L := by
    rw [zetaL]
    exact Complex.isPrimitiveRoot_exp L hL.ne'
  set n : ℕ := (L - (i : ℕ)) % L with hn
  have hin : ((i : ℕ) + n) % L = 0 := by
    have h1 : ((i : ℕ) + n) % L = ((i : ℕ) + (L - (i : ℕ))) % L :=
      Nat.ModEq.add_left _ (hn ▸ Nat.mod_modEq (L - (i : ℕ)) L)
    rw [h1, Nat.add_sub_cancel' i.2.le, Nat.mod_self]
  rw [ifft]
  have hstep : ∀ j : Fin L,
      (∑ l : Fin L, K l * zetaL L ^ ((j : ℕ) * (l : ℕ))) *
          Complex.exp (2 * Real.pi * Complex.I / L * ((j : ℂ) * (n : ℂ))) =
        ∑ l : Fin L, K l * (zetaL L ^ ((l : ℕ) + n)) ^ (j : ℕ) := by
    intro j
    rw [ifft_exp_eq_pow, Finset.sum_mul]
    refine Finset.sum_congr rfl fun l _ => ?_
    rw [mul_assoc, ← pow_add, ← pow_mul]
    congr 2
    ring
  rw [Finset.sum_congr rfl fun j _ => hstep j, Finset.sum_comm]
  have hzL : zetaL L ^ L = 1 := hprim.pow_eq_one
  have hone : ∀ l : Fin L,
      ∑ j : Fin L, (zetaL L ^ ((l : ℕ) + n)) ^ (j : ℕ) =
        if L ∣ (l : ℕ) + n then (L : ℂ) else 0 := by
    intro l
    rw [sum_pow_eq_ite _ (by rw [← pow_mul, mul_comm, pow_mul, hzL, one_pow])]
    congr 1
    rw [eq_iff_iff]
    exact hprim.pow_eq_one_iff_dvd _
  rw [Finset.sum_congr rfl fun l _ => by rw [← Finset.mul_sum, hone l]]
  have hsingle : ∑ l : Fin L, K l * (if L ∣ (l : ℕ) + n then (L : ℂ) else 0) = K i * L := by
    rw [Finset.sum_eq_single i]
    · rw [if_pos (Nat.dvd_iff_mod_eq_zero.mpr hin)]
    · intro l _ hli
      rw [if_neg, mul_zero]
      intro hdvd
      apply hli
      have hln : ((l : ℕ) + n) % L = 0 := Nat.dvd_iff_mod_eq_zero.mp hdvd
      have hmodeq : (l : ℕ) ≡ (i : ℕ) [MOD L] :=
        Nat.ModEq.add_right_cancel' n
          (show ((l : ℕ) + n) % L = ((i : ℕ) + n) % L by rw [hln, hin])
      have hmods : (l : ℕ) % L = (i : ℕ) % L := hmodeq
      exact Fin.ext (by rwa [Nat.mod_eq_of_lt l.2, Nat.mod_eq_of_lt i.2] at hmods)
    · intro h
      exact absurd (Finset.mem_univ i) h
  rw [hsingle]
  have hLne : (L : ℂ) ≠ 0 := Nat.cast_ne_zero.mpr hL.ne'
  field_simp

/-- If `gen` agrees with the truncated generating series of the complex kernel
`K` at every sampled root of unity, then `convFromGen` returns the real parts
of `K` and discards its imaginary parts. -/
theorem convFromGen_eq_of_samples {L : ℕ} (gen : ℂ → ℂ) (K : Fin L → ℂ)
    (hgen : ∀ j : Fin L,
      gen (rootOfUnity L (j : ℕ)) = ∑ l : Fin L, K l * rootOfUnity L (j : ℕ) ^ (l : ℕ))
    (i : Fin L) :
    convFromGen gen L i = (K i).re ∧ convFromGenImag gen L i = (K i).im := by
  have hmain : ifft (fun j : Fin L => gen (rootOfUnity L (j : ℕ))) ((L - (i : ℕ)) % L) = K i := by
    have hcongr : (fun j : Fin L => gen (rootOfUnity L (j : ℕ))) =
        fun j : Fin L => ∑ l : Fin L, K l * zetaL L ^ ((j : ℕ) * (l : ℕ)) := by
      funext j
      rw [hgen j]
      refine Finset.sum_congr rfl fun l _ => ?_
      rw [rootOfUnity_eq_pow, ← pow_mul]
    rw [hcongr, ifft_gen_eq]
  exact ⟨by rw [convFromGen, hmain], by rw [convFromGenImag, hmain]⟩

/-- C3: For every real kernel `K` of length `L`: sampling its truncated
generating function (as built by `K_gen_simple`) at the `L`-th roots of unity,
inverse-DFT-ing, reordering (`0 ↦ 0`, `k ↦ L-k`) and taking the real part —
exactly what `convFromGen` does — recovers `K`, and the discarded imaginary
component is exactly zero. -/
theorem convFromGen_K_gen_simple {L : ℕ} (K : Fin L → ℝ) (i : Fin L) :
    convFromGen (K_gen_simple K) L i = K i ∧ convFromGenImag (K_gen_simple K) L i = 0 := by
  have h := convFromGen_eq_of_samples (K_gen_simple K) (fun l => (K l : ℂ))
    (fun j => rfl) i
  simpa using h

/-! ## Spectrum of the symmetrized HiPPO companion matrix -/

/-- The companion matrix `S = hippo + (0.5*pq + 0.5*I)` built by
`make_DPLR_HiPPO` is skew-symmetric. -/
theorem S_mat_skew (N : ℕ) : (S_mat N)ᵀ = -(S_mat N) := by
  have hp2 : ∀ k : Fin N, hippo_p N k * hippo_p N k = 2 * (((k : ℕ) : ℝ) + 1) + 1 :=
    fun k => Real.mul_self_sqrt (by positivity)
  ext i j
  simp only [Matrix.transpose_apply, Matrix.neg_apply, S_mat, Matrix.add_apply,
    Matrix.smul_apply, hippo_mat, hippo_pq, Matrix.of_apply, Matrix.one_apply, smul_eq_mul]
  rcases lt_trichotomy (i : ℕ) (j : ℕ) with h | h | h
  · have hne1 : j ≠ i := Fin.ne_of_val_ne (by omega)
    have hne2 : i ≠ j := Fin.ne_of_val_ne (by omega)
    simp only [if_pos h, if_neg hne1, if_neg hne2,
      if_neg (show ¬(j : ℕ) < (i : ℕ) by omega)]
    ring
  · have heq : i = j := Fin.ext h
    subst heq
    simp only [if_neg (show ¬(i : ℕ) < (i : ℕ) by omega), if_pos rfl]
    rw [hp2 i]
    push_cast
    ring
  · have hne1 : j ≠ i := Fin.ne_of_val_ne (by omega)
    have hne2 : i ≠ j := Fin.ne_of_val_ne (by omega)
    simp only [if_pos h, if_neg hne1, if_neg hne2,
      if_neg (show ¬(i : ℕ) < (j : ℕ) by omega)]
    ring

/-- Every eigenvalue of a real skew-symmetric matrix, viewed over `ℂ`, is
purely imaginary. -/
theorem skew_eigen_re_zero {N : ℕ} (S : Matrix (Fin N) (Fin N) ℝ) (hskew : Sᵀ = -S)
    (μ : ℂ) (v : Fin N → ℂ) (hv : v ≠ 0)
    (heig : (S.map fun x : ℝ => (x : ℂ)).mulVec v = μ • v) : μ.re = 0 := by
  classical
  set d : ℂ := ∑ i, (starRingEnd ℂ) (v i) * v i with hd
  have hdreal : (starRingEnd ℂ) d = d := by
    rw [hd, map_sum]
    refine Finset.sum_congr rfl fun i _ => ?_
    rw [RingHom.map_mul, Complex.conj_conj, mul_comm]
  have hdne : d ≠ 0 := by
    have hnormsq : d = ((∑ i, Complex.normSq (v i) : ℝ) : ℂ) := by
      rw [hd]
      push_cast
      refine Finset.sum_congr rfl fun i _ => ?_
      rw [← Complex.normSq_eq_conj_mul_self]
    obtain ⟨i0, hi0⟩ : ∃ i, v i ≠ 0 := by
      by_contra hall
      push_neg at hall
      exact hv (funext hall)
    have hpos : 0 < ∑ i, Complex.normSq (v i) :=
      Finset.sum_pos' (fun i _ => Complex.normSq_nonneg _)
        ⟨i0, Finset.mem_univ _, Complex.normSq_pos.mpr hi0⟩
    rw [hnormsq]
    exact_mod_cast hpos.ne'
  have hSneg : ∀ a b, ((S a b : ℝ) : ℂ) = -((S b a : ℝ) : ℂ) := by
    intro a b
    have h1 : S b a = -S a b := by
      have := congrFun (congrFun hskew a) b
      simpa [Matrix.transpose_apply, Matrix.neg_apply] using this
    rw [show S a b = -S b a by rw [h1]; ring]
    push_cast
    ring
  set T : ℂ := ∑ i, ∑ j, (starRingEnd ℂ) (v i) * ((S i j : ℝ) : ℂ) * v j with hT
  have hT1 : T = μ * d := by
    have hrows : ∀ i, ∑ j, (starRingEnd ℂ) (v i) * ((S i j : ℝ) : ℂ) * v j
        = (starRingEnd ℂ) (v i) * (μ * v i) := by
      intro i
      have hrow : ∑ j, ((S i j : ℝ) : ℂ) * v j = μ * v i := by
        have hcomp := congrFun heig i
        simpa [Matrix.mulVec, Matrix.dotProduct, Matrix.map_apply, Pi.smul_apply,
          smul_eq_mul] using hcomp
      calc ∑ j, (starRingEnd ℂ) (v i) * ((S i j : ℝ) : ℂ) * v j
          = (starRingEnd ℂ) (v i) * ∑ j, ((S i j : ℝ) : ℂ) * v j := by
            rw [Finset.mul_sum]
            exact Finset.sum_congr rfl fun j _ => by ring
        _ = (starRingEnd ℂ) (v i) * (μ * v i) := by rw [hrow]
    rw [hT, Finset.sum_congr rfl fun i _ => hrows i, hd, Finset.mul_sum]
    exact Finset.sum_congr rfl fun i _ => by ring
  have hT2 : (starRingEnd ℂ) T = -T := by
    calc (starRingEnd ℂ) T
        = ∑ i, ∑ j, -((starRingEnd ℂ) (v j) * ((S j i : ℝ) : ℂ) * v i) := by
          rw [hT, map_sum]
          refine Finset.sum_congr rfl fun i _ => ?_
          rw [map_sum]
          refine Finset.sum_congr rfl fun j _ => ?_
          rw [RingHom.map_mul, RingHom.map_mul, Complex.conj_conj, Complex.conj_ofReal,
            hSneg i j]
          ring
      _ = -∑ j, ∑ i, (starRingEnd ℂ) (v j) * ((S j i : ℝ) : ℂ) * v i := by
          rw [← Finset.sum_neg_distrib]
          rw [Finset.sum_comm]
          exact Finset.sum_congr rfl fun j _ => by rw [← Finset.sum_neg_distrib]
      _ = -T := by rw [hT]
  have h1 : (starRingEnd ℂ) μ * d = -(μ * d) := by
    have h2 := hT2
    rw [hT1, RingHom.map_mul, hdreal] at h2
    exact h2
  have hsum : (starRingEnd ℂ) μ + μ = 0 := by
    rcases mul_eq_zero.mp (show ((starRingEnd ℂ) μ + μ) * d = 0 by linear_combination h1)
      with h | h
    · exact h
    · exact absurd h hdne
  have hre : ((2 * μ.re : ℝ) : ℂ) = 0 := by
    rw [← Complex.add_conj μ]
    rw [add_comm] at hsum
    exact hsum
  have : (2 : ℝ) * μ.re = 0 := by exact_mod_cast hre
  linarith

/-- C5: Every entry of the diagonal vector returned by
`make_DPLR_HiPPO N` — an eigenvalue `μ` of the companion matrix `S`, shifted
by `-1/2` (s4.py line 537) — has strictly negative real part, for every `N`.
The library eigendecomposition `eig_cpu` is modelled by an arbitrary
eigenpair `(μ, v)` of the matrix the code passes to it. -/
theorem make_DPLR_HiPPO_Lambda_re_neg (N : ℕ) (μ : ℂ) (v : Fin N → ℂ) (hv : v ≠ 0)
    (heig : (S_matC N).mulVec v = μ • v) : (μ - 1 / 2).re < 0 := by
  have h0 : μ.re = 0 := skew_eigen_re_zero (S_mat N) (S_mat_skew N) μ v hv heig
  rw [Complex.sub_re, h0]
  norm_num

/-- Witness for `make_DPLR_HiPPO_Lambda_re_neg`: for `N = 1` the companion
matrix is the 1×1 zero matrix (since `sqrt 3 * sqrt 3 = 3`), so `μ = 0` with
eigenvector `1`. -/
theorem make_DPLR_HiPPO_Lambda_re_neg_witness :
    ((fun _ : Fin 1 => (1 : ℂ)) ≠ 0 ∧
      (S_matC 1).mulVec (fun _ : Fin 1 => 1) = (0 : ℂ) • (fun _ : Fin 1 => (1 : ℂ))) ∧
      ((0 : ℂ) - 1 / 2).re < 0 := by
  have hv : (fun _ : Fin 1 => (1 : ℂ)) ≠ 0 := by
    intro h
    have h0 := congrFun h 0
    simp at h0
  have h3 : Real.sqrt 3 * Real.sqrt 3 = 3 := Real.mul_self_sqrt (by norm_num)
  have hS : S_mat 1 0 0 = 0 := by
    simp [S_mat, hippo_mat, hippo_pq, hippo_p, Matrix.one_apply]
    norm_num [h3]
  have heig : (S_matC 1).mulVec (fun _ : Fin 1 => 1) = (0 : ℂ) • (fun _ : Fin 1 => (1 : ℂ)) := by
    funext i
    have hi : i = 0 := Subsingleton.elim i 0
    subst hi
    simp [S_matC, Matrix.mulVec, Matrix.dotProduct, Fin.sum_univ_one, Matrix.map_apply, hS]
  exact ⟨⟨hv, heig⟩, make_DPLR_HiPPO_Lambda_re_neg 1 0 _ hv heig⟩

/-- C10: `make_HiPPO N` is the elementwise negation of the `hippo` matrix
built inside `make_DPLR_HiPPO N` — so the transition operator `NaiveSSMInit`
passes to the naive layer is the negation of the operator whose DPLR form
`S4LayerInit` uses — and every eigenvalue of `make_HiPPO N` (a lower
triangular matrix with diagonal `2, 3, ..., N+1`) has strictly positive real
part. -/
theorem make_HiPPO_neg_hippo_and_spectrum (N : ℕ) :
    make_HiPPO N = -(hippo_mat N) ∧
      ∀ (μ : ℂ) (v : Fin N → ℂ), v ≠ 0 → (make_HiPPOC N).mulVec v = μ • v → 0 < μ.re := by
  constructor
  · ext i j
    simp only [make_HiPPO, hippo_mat, hippo_p, Matrix.neg_apply, Matrix.of_apply]
    rcases lt_trichotomy (j : ℕ) (i : ℕ) with h | h | h
    · rw [if_pos (show (j : ℕ) + 1 < (i : ℕ) + 1 by omega), if_pos h,
        if_neg (Fin.ne_of_val_ne (show (i : ℕ) ≠ (j : ℕ) by omega))]
      ring
    · have heq : i = j := Fin.ext h.symm
      subst heq
      rw [if_neg (show ¬(i : ℕ) + 1 < (i : ℕ) + 1 by omega), if_pos rfl,
        if_neg (show ¬(i : ℕ) < (i : ℕ) by omega), if_pos rfl]
      ring
    · rw [if_neg (show ¬(j : ℕ) + 1 < (i : ℕ) + 1 by omega),
        if_neg (show ¬(i : ℕ) + 1 = (j : ℕ) + 1 by omega),
        if_neg (show ¬(j : ℕ) < (i : ℕ) by omega),
        if_neg (Fin.ne_of_val_ne (show (i : ℕ) ≠ (j : ℕ) by omega))]
      ring
  · intro μ v hv heig
    have htri : (μ • (1 : Matrix (Fin N) (Fin N) ℂ) - make_HiPPOC N).BlockTriangular
        OrderDual.toDual := by
      intro i j hij
      have hlt : i < j := by
        rwa [OrderDual.toDual_lt_toDual] at hij
      have hvlt : (i : ℕ) < (j : ℕ) := hlt
      have hne : i ≠ j := ne_of_lt hlt
      simp [Matrix.sub_apply, Matrix.smul_apply, Matrix.one_apply, hne, make_HiPPOC,
        make_HiPPO, Matrix.map_apply, smul_eq_mul,
        (show ¬(j : ℕ) + 1 < (i : ℕ) + 1 by omega),
        (show ¬(i : ℕ) + 1 = (j : ℕ) + 1 by omega),
        (show ¬(j : ℕ) < (i : ℕ) by omega),
        (show (i : ℕ) ≠ (j : ℕ) by omega)]
      intro hcon
      exact absurd (hlt.trans hcon) (lt_irrefl _)
    have hdet0 : (μ • (1 : Matrix (Fin N) (Fin N) ℂ) - make_HiPPOC N).det = 0 := by
      rw [← Matrix.exists_mulVec_eq_zero_iff]
      refine ⟨v, hv, ?_⟩
      rw [Matrix.sub_mulVec, Matrix.smul_mulVec_assoc, Matrix.one_mulVec, heig, sub_self]
    have hdet : (μ • (1 : Matrix (Fin N) (Fin N) ℂ) - make_HiPPOC N).det =
        ∏ i : Fin N, (μ - ((((((i : ℕ) + 1 : ℕ) : ℝ) + 1 : ℝ)) : ℂ)) := by
      rw [Matrix.det_of_lowerTriangular _ htri]
      refine Finset.prod_congr rfl fun i _ => ?_
      simp [Matrix.sub_apply, Matrix.smul_apply, Matrix.one_apply, make_HiPPOC, make_HiPPO,
        Matrix.map_apply, smul_eq_mul,
        (show ¬(i : ℕ) + 1 < (i : ℕ) + 1 by omega)]
    obtain ⟨i, _, hzero⟩ := Finset.prod_eq_zero_iff.mp (hdet ▸ hdet0)
    have hmu : μ = ((((((i : ℕ) + 1 : ℕ) : ℝ) + 1 : ℝ)) : ℂ) := by
      linear_combination hzero
    rw [hmu, Complex.ofReal_re]
    positivity

/-- Witness for the spectral half of `make_HiPPO_neg_hippo_and_spectrum`:
for `N = 1`, `make_HiPPO 1 = [[2]]`, with eigenpair `μ = 2`, `v = 1`. -/
theorem make_HiPPO_spectrum_witness :
    ((fun _ : Fin 1 => (1 : ℂ)) ≠ 0 ∧
      (make_HiPPOC 1).mulVec (fun _ : Fin 1 => 1) = (2 : ℂ) • (fun _ : Fin 1 => (1 : ℂ))) ∧
      (0 : ℝ) < (2 : ℂ).re := by
  have hv : (fun _ : Fin 1 => (1 : ℂ)) ≠ 0 := by
    intro h
    have h0 := congrFun h 0
    simp at h0
  have heig : (make_HiPPOC 1).mulVec (fun _ : Fin 1 => 1) =
      (2 : ℂ) • (fun _ : Fin 1 => (1 : ℂ)) := by
    funext i
    have hi : i = 0 := Subsingleton.elim i 0
    subst hi
    simp [make_HiPPOC, make_HiPPO, Matrix.mulVec, Matrix.dotProduct, Fin.sum_univ_one,
      Matrix.map_apply]
    norm_num
  exact ⟨⟨hv, heig⟩, (make_HiPPO_neg_hippo_and_spectrum 1).2 2 _ hv heig⟩

/-! ## Shape and singularity behaviour of the discretizer -/

/-- C9: Calling `discretize` with `A` of size `N×N` and `B` of size `M×1`,
`M ≠ N`, yields a dimension-mismatch error (raised by the matrix product
`(BL * step) @ B`) and never a numerical result. -/
theorem discretizeE_dim_mismatch (A B C : RMat) (step : ℝ) (N M : ℕ)
    (hA1 : A.rows = N) (hA2 : A.cols = N) (hB1 : B.rows = M) (_hB2 : B.cols = 1)
    (hMN : M ≠ N) :
    discretizeE A B C step = Except.error NumErr.dimMismatch := by
  have hsq : A.rows = A.cols := by rw [hA1, hA2]
  have hne : ¬ A.cols = B.rows := by
    rw [hA2, hB1]
    exact fun h => hMN h.symm
  simp [discretizeE, eyeE, smulE, subE, addE, matmulE, rinvE, Except.bind, hsq, hne]

/-- Witness for `discretizeE_dim_mismatch`: `A` is `1×1`, `B` is `2×1`. -/
theorem discretizeE_dim_mismatch_witness :
    ((RMat.mk 1 1 fun _ _ => 0).rows = 1 ∧ (RMat.mk 1 1 fun _ _ => 0).cols = 1 ∧
      (RMat.mk 2 1 fun _ _ => 0).rows = 2 ∧ (RMat.mk 2 1 fun _ _ => 0).cols = 1 ∧
      (2 : ℕ) ≠ 1) ∧
      discretizeE (RMat.mk 1 1 fun _ _ => 0) (RMat.mk 2 1 fun _ _ => 0)
          (RMat.mk 1 1 fun _ _ => 0) 1 = Except.error NumErr.dimMismatch :=
  ⟨⟨rfl, rfl, rfl, rfl, by norm_num⟩,
    discretizeE_dim_mismatch (RMat.mk 1 1 fun _ _ => 0) (RMat.mk 2 1 fun _ _ => 0)
      (RMat.mk 1 1 fun _ _ => 0) 1 1 2 rfl rfl rfl rfl (by norm_num)⟩

/-- C7, code evaluation: On the singular input `A = [[1]]`, `step = 2`
(where `I - (step/2)·A = [[0]]`), `discretize` reports no error at all: it
returns `Except.ok`, with junk entries (here `0`, Mathlib's convention for the
inverse of a singular matrix; `jax.numpy.linalg.inv` produces non-finite
values) in `Ā` and `B̄`.  The claim's required explicit singularity error does
not exist in the code. -/
theorem discretizeE_singular_silent :
    ∃ Abar Bbar Cout,
      discretizeE (RMat.mk 1 1 fun _ _ => 1) (RMat.mk 1 1 fun _ _ => 1)
          (RMat.mk 1 1 fun _ _ => 1) 2 = Except.ok (Abar, Bbar, Cout) ∧
        Abar.entry 0 0 = 0 ∧ Bbar.entry 0 0 = 0 ∧ Cout.entry 0 0 = 1 := by
  refine ⟨_, _, _, rfl, ?_, ?_, rfl⟩
  · show (∑ t ∈ Finset.range 1, _ * _) = (0 : ℝ)
    rw [Finset.sum_range_one, Matrix.nonsing_inv_apply_not_isUnit]
    · simp
    · rw [Matrix.det_fin_one]
      norm_num [eyeE, smulE, Matrix.of_apply]
  · show (∑ t ∈ Finset.range 1, _ * _) = (0 : ℝ)
    rw [Finset.sum_range_one]
    simp only [smulE]
    rw [Matrix.nonsing_inv_apply_not_isUnit]
    · simp
    · rw [Matrix.det_fin_one]
      norm_num [eyeE, smulE, Matrix.of_apply]

/-- C8, code evaluation: `convFromGen` performs no assertion on the
discarded imaginary component: on the generator that is constantly `i`
(length 1) it silently returns the real part `0` even though the discarded
imaginary component equals `1`, far beyond any tolerance. -/
theorem convFromGen_discards_imag_silently :
    convFromGen (fun _ => Complex.I) 1 0 = 0 ∧
      convFromGenImag (fun _ => Complex.I) 1 0 = 1 := by
  constructor <;>
    simp [convFromGen, convFromGenImag, ifft, Fin.sum_univ_one]

/-! ## The DPLR fast path versus the naive kernel (C1) -/

/-- Applying `g·I - (diag Λ - p q*)` to the Woodbury solution vector recovers
the right-hand side, provided `g` avoids every pole `Λ i` and the Woodbury
denominator `1 + k(q*, p)` is nonzero. -/
theorem dplr_mulVec_woodburyX {N : ℕ} (Lambda p q : Fin N → ℂ) (g : ℂ) (Bv : Fin N → ℂ)
    (hpole : ∀ i, g ≠ Lambda i)
    (hwood : (1 : ℂ) + cauchy_dot (fun k => star (q k) * p k) g Lambda ≠ 0) :
    (g • (1 : Matrix (Fin N) (Fin N) ℂ) - dplrA Lambda p q).mulVec
      (woodburyX Lambda p q g Bv) = Bv := by
  classical
  have hqx : ∑ k, star (q k) * woodburyX Lambda p q g Bv k
      = cauchy_dot (fun k => star (q k) * Bv k) g Lambda /
          (1 + cauchy_dot (fun k => star (q k) * p k) g Lambda) := by
    have hsplit : ∑ k, star (q k) * woodburyX Lambda p q g Bv k
        = cauchy_dot (fun k => star (q k) * Bv k) g Lambda -
            cauchy_dot (fun k => star (q k) * Bv k) g Lambda /
                (1 + cauchy_dot (fun k => star (q k) * p k) g Lambda) *
              cauchy_dot (fun k => star (q k) * p k) g Lambda := by
      simp only [woodburyX, cauchy_dot, mul_sub]
      rw [Finset.sum_sub_distrib]
      congr 1
      · exact Finset.sum_congr rfl fun k _ => by ring
      · rw [Finset.mul_sum]
        exact Finset.sum_congr rfl fun k _ => by ring
    have halg : ∀ K J : ℂ, 1 + J ≠ 0 → K - K / (1 + J) * J = K / (1 + J) := by
      intro K J hJ
      field_simp
      ring
    rw [hsplit]
    exact halg _ _ hwood
  funext i
  have hentry : ∀ k, (g • (1 : Matrix (Fin N) (Fin N) ℂ) - dplrA Lambda p q) i k
      = (if i = k then g - Lambda i else 0) + p i * star (q k) := by
    intro k
    by_cases h : i = k
    · subst h
      simp [dplrA, Matrix.smul_apply, Matrix.sub_apply, Matrix.one_apply,
        Matrix.diagonal_apply_eq, Matrix.of_apply, smul_eq_mul]
      ring
    · simp [dplrA, Matrix.smul_apply, Matrix.sub_apply, Matrix.one_apply_ne h,
        Matrix.diagonal_apply_ne _ h, Matrix.of_apply, smul_eq_mul, h]
  have hrow : (g • (1 : Matrix (Fin N) (Fin N) ℂ) - dplrA Lambda p q).mulVec
      (woodburyX Lambda p q g Bv) i
      = (g - Lambda i) * woodburyX Lambda p q g Bv i
        + p i * ∑ k, star (q k) * woodburyX Lambda p q g Bv k := by
    rw [Matrix.mulVec, Matrix.dotProduct]
    rw [Finset.sum_congr rfl fun k _ => by rw [hentry k, add_mul]]
    rw [Finset.sum_add_distrib]
    congr 1
    · simp [ite_mul, Finset.sum_ite_eq]
    · rw [Finset.mul_sum]
      exact Finset.sum_congr rfl fun k _ => by ring
  rw [hrow, hqx]
  simp only [woodburyX]
  have hgl : g - Lambda i ≠ 0 := sub_ne_zero.mpr (hpole i)
  have halg2 : ∀ a b c K J : ℂ, a ≠ 0 → 1 + J ≠ 0 →
      a * (b / a - K / (1 + J) * (c / a)) + c * (K / (1 + J)) = b := by
    intro a b c K J ha hJ
    field_simp
    ring
  exact halg2 _ _ _ _ _ hgl hwood

/-- Transfer between the bilinear-discretized resolvent and the continuous
DPLR resolvent: if `(g(z)·I - A) x = B` then
`(I - z·Ā) (c(z)·x) = step · M B` where `Ā = M (I + (step/2) A)`,
`M = (I - (step/2) A)⁻¹`. -/
theorem resolvent_transfer {N : ℕ} (A : Matrix (Fin N) (Fin N) ℂ) (step z : ℂ)
    (hstep : step ≠ 0) (hz1 : (1 : ℂ) + z ≠ 0)
    (hdet : IsUnit ((1 : Matrix (Fin N) (Fin N) ℂ) - (step / 2) • A).det)
    (x Bv : Fin N → ℂ)
    (hx : (gBilin step z • (1 : Matrix (Fin N) (Fin N) ℂ) - A).mulVec x = Bv) :
    ((1 : Matrix (Fin N) (Fin N) ℂ) -
        z • (((1 : Matrix (Fin N) (Fin N) ℂ) - (step / 2) • A)⁻¹ *
          ((1 : Matrix (Fin N) (Fin N) ℂ) + (step / 2) • A))).mulVec (cBilin z • x)
      = ((1 : Matrix (Fin N) (Fin N) ℂ) - (step / 2) • A)⁻¹.mulVec (step • Bv) := by
  set W := (1 : Matrix (Fin N) (Fin N) ℂ) - (step / 2) • A with hWdef
  set T := (1 : Matrix (Fin N) (Fin N) ℂ) + (step / 2) • A with hTdef
  have hMW : W⁻¹ * W = 1 := Matrix.nonsing_inv_mul W hdet
  have hgz : (step / 2) * (1 + z) * gBilin step z = 1 - z := by
    rw [gBilin]
    field_simp
    ring
  have hexpand : ((step / 2) * (1 + z)) •
      (gBilin step z • (1 : Matrix (Fin N) (Fin N) ℂ) - A) = W - z • T := by
    rw [smul_sub, smul_smul, hgz, hWdef, hTdef]
    module
  have hfactor : (1 : Matrix (Fin N) (Fin N) ℂ) - z • (W⁻¹ * T)
      = W⁻¹ * (((step / 2) * (1 + z)) •
          (gBilin step z • (1 : Matrix (Fin N) (Fin N) ℂ) - A)) := by
    rw [hexpand, Matrix.mul_sub, hMW, Matrix.mul_smul]
  have hcc : step / 2 * (1 + z) * cBilin z = step := by
    rw [cBilin]
    field_simp
  rw [hfactor, ← Matrix.mulVec_mulVec, Matrix.smul_mulVec_assoc, Matrix.mulVec_smul,
    Matrix.mulVec_smul, hx, Matrix.mulVec_smul, Matrix.mulVec_smul, smul_smul, hcc]

/-- Pulling a finite sum out of a dot product with a matrix-vector product. -/
theorem dot_sum_mulVec {N L : ℕ} (v : Fin N → ℂ) (M : Fin L → Matrix (Fin N) (Fin N) ℂ)
    (y : Fin N → ℂ) :
    ∑ l : Fin L, v ⬝ᵥ (M l).mulVec y = v ⬝ᵥ (∑ l : Fin L, M l).mulVec y := by
  have h1 : ∀ Mx : Matrix (Fin N) (Fin N) ℂ,
      v ⬝ᵥ Mx.mulVec y = ∑ i, ∑ k, v i * (Mx i k * y k) := by
    intro Mx
    rw [Matrix.dotProduct]
    exact Finset.sum_congr rfl fun i _ => by
      rw [Matrix.mulVec, Matrix.dotProduct, Finset.mul_sum]
  rw [Finset.sum_congr rfl fun l _ => h1 (M l), h1, Finset.sum_comm]
  refine Finset.sum_congr rfl fun i _ => ?_
  rw [Finset.sum_comm]
  refine Finset.sum_congr rfl fun k _ => ?_
  rw [Matrix.sum_apply, Finset.sum_mul, Finset.mul_sum]

/-- The truncated generating series of the naive kernel, at a point `z` with
`z^L = 1`, collapses to the boundary-corrected resolvent applied to the
solution vector `y` of `(I - z·Ā) y = B̄`. -/
theorem kernel_gen_sum {N L : ℕ} (Abar : Matrix (Fin N) (Fin N) ℂ) (Bbar Cbar : Fin N → ℂ)
    (z : ℂ) (hzL : z ^ L = 1) (y : Fin N → ℂ)
    (hy : ((1 : Matrix (Fin N) (Fin N) ℂ) - z • Abar).mulVec y = Bbar) :
    ∑ l : Fin L, K_conv Abar Bbar Cbar L l * z ^ (l : ℕ)
      = Cbar ⬝ᵥ ((1 - Abar ^ L).mulVec y) := by
  have hterm : ∀ l : Fin L, K_conv Abar Bbar Cbar L l * z ^ (l : ℕ)
      = Cbar ⬝ᵥ ((z • Abar) ^ (l : ℕ) * ((1 : Matrix (Fin N) (Fin N) ℂ) - z • Abar)).mulVec y := by
    intro l
    simp only [K_conv]
    rw [← Matrix.mulVec_mulVec, hy, smul_pow, Matrix.smul_mulVec_assoc,
      Matrix.dotProduct_smul, smul_eq_mul]
    ring
  have hmats : ∑ l : Fin L, (z • Abar) ^ (l : ℕ) * ((1 : Matrix (Fin N) (Fin N) ℂ) - z • Abar)
      = 1 - Abar ^ L := by
    rw [← Finset.sum_mul, Fin.sum_univ_eq_sum_range (fun l => (z • Abar) ^ l)]
    have hneg : (∑ i ∈ Finset.range L, (z • Abar) ^ i) *
        ((1 : Matrix (Fin N) (Fin N) ℂ) - z • Abar)
        = -((∑ i ∈ Finset.range L, (z • Abar) ^ i) * ((z • Abar) - 1)) := by
      rw [← mul_neg, neg_sub]
    rw [hneg, geom_sum_mul, neg_sub, smul_pow, hzL, one_smul]
  rw [Finset.sum_congr rfl fun l _ => hterm l, dot_sum_mulVec, hmats]

/-- Folding a self-conjugate row vector through a matrix: the dot product
`c ⬝ᵥ Mx x` equals the weighted sum against the conjugate of `Mxᴴ c` (the form
`S4Layer.setup` stores in `Ct`). -/
theorem dot_mulVec_star {N : ℕ} (Mx : Matrix (Fin N) (Fin N) ℂ) (c x : Fin N → ℂ)
    (hreal : ∀ k, star (c k) = c k) :
    c ⬝ᵥ Mx.mulVec x = ∑ i, star ((Mxᴴ.mulVec c) i) * x i := by
  have hstar : ∀ i, star ((Mxᴴ.mulVec c) i) = ∑ j, Mx j i * c j := by
    intro i
    rw [Matrix.mulVec, Matrix.dotProduct, star_sum]
    refine Finset.sum_congr rfl fun j _ => ?_
    rw [star_mul', Matrix.conjTranspose_apply, star_star, hreal j]
  rw [Finset.sum_congr rfl fun i _ => by rw [hstar i, Finset.sum_mul]]
  rw [Finset.sum_comm, Matrix.dotProduct]
  refine Finset.sum_congr rfl fun j _ => ?_
  rw [Matrix.mulVec, Matrix.dotProduct, Finset.mul_sum]
  exact Finset.sum_congr rfl fun i _ => by ring

/-- Contracting any vector `u` against the Woodbury solution produces exactly
the four-Cauchy-dot combination of `K_gen_DPLR`. -/
theorem dot_woodburyX {N : ℕ} (Lambda p q : Fin N → ℂ) (g : ℂ) (Bv u : Fin N → ℂ) :
    ∑ i, u i * woodburyX Lambda p q g Bv i
      = cauchy_dot (fun i => u i * Bv i) g Lambda -
          cauchy_dot (fun i => u i * p i) g Lambda *
            (1 / (1 + cauchy_dot (fun i => star (q i) * p i) g Lambda)) *
            cauchy_dot (fun i => star (q i) * Bv i) g Lambda := by
  simp only [woodburyX, mul_sub]
  rw [Finset.sum_sub_distrib]
  congr 1
  · rw [cauchy_dot]
    exact Finset.sum_congr rfl fun i _ => by ring
  · have hpull : ∑ i, u i * (cauchy_dot (fun k => star (q k) * Bv k) g Lambda /
        (1 + cauchy_dot (fun k => star (q k) * p k) g Lambda) * (p i / (g - Lambda i)))
        = cauchy_dot (fun k => star (q k) * Bv k) g Lambda /
            (1 + cauchy_dot (fun k => star (q k) * p k) g Lambda) *
            ∑ i, u i * p i / (g - Lambda i) := by
      rw [Finset.mul_sum]
      exact Finset.sum_congr rfl fun i _ => by ring
    rw [hpull]
    conv_rhs => rw [cauchy_dot]
    rw [div_eq_mul_one_div]
    ring

/-- The generating function built by `K_gen_DPLR` from the boundary-corrected
`Ct` agrees, at every point `z` with `z^L = 1` (and away from the degenerate
configurations), with the truncated generating series of the naive kernel of
the discretized DPLR system. -/
theorem K_gen_DPLR_samples {N L : ℕ} (Lambda p q : Fin N → ℂ) (B C : Fin N → ℝ)
    (sC z : ℂ) (hstep : sC ≠ 0) (hz1 : (1 : ℂ) + z ≠ 0) (hzL : z ^ L = 1)
    (hdet : IsUnit ((1 : Matrix (Fin N) (Fin N) ℂ) - (sC / 2) • dplrA Lambda p q).det)
    (hpole : ∀ i, gBilin sC z ≠ Lambda i)
    (hwood : (1 : ℂ) + cauchy_dot (fun k => star (q k) * p k) (gBilin sC z) Lambda ≠ 0) :
    K_gen_DPLR Lambda p q (fun k => (B k : ℂ))
        (Ct_of (((1 : Matrix (Fin N) (Fin N) ℂ) - (sC / 2) • dplrA Lambda p q)⁻¹ *
            ((1 : Matrix (Fin N) (Fin N) ℂ) + (sC / 2) • dplrA Lambda p q))
          (fun k => (C k : ℂ)) L) sC z
      = ∑ l : Fin L,
          K_conv (((1 : Matrix (Fin N) (Fin N) ℂ) - (sC / 2) • dplrA Lambda p q)⁻¹ *
              ((1 : Matrix (Fin N) (Fin N) ℂ) + (sC / 2) • dplrA Lambda p q))
            ((sC • ((1 : Matrix (Fin N) (Fin N) ℂ) - (sC / 2) • dplrA Lambda p q)⁻¹).mulVec
              fun k => (B k : ℂ))
            (fun k => (C k : ℂ)) L l * z ^ (l : ℕ) := by
  have hsolve := dplr_mulVec_woodburyX Lambda p q (gBilin sC z) (fun k => (B k : ℂ))
    hpole hwood
  have htransfer := resolvent_transfer (dplrA Lambda p q) sC z hstep hz1 hdet
    (woodburyX Lambda p q (gBilin sC z) fun k => (B k : ℂ)) (fun k => (B k : ℂ)) hsolve
  have hBbar : (((1 : Matrix (Fin N) (Fin N) ℂ) - (sC / 2) • dplrA Lambda p q)⁻¹).mulVec
      (sC • fun k => (B k : ℂ))
      = (sC • ((1 : Matrix (Fin N) (Fin N) ℂ) - (sC / 2) • dplrA Lambda p q)⁻¹).mulVec
        fun k => (B k : ℂ) := by
    rw [Matrix.smul_mulVec_assoc, Matrix.mulVec_smul]
  have hsum := kernel_gen_sum
    (((1 : Matrix (Fin N) (Fin N) ℂ) - (sC / 2) • dplrA Lambda p q)⁻¹ *
      ((1 : Matrix (Fin N) (Fin N) ℂ) + (sC / 2) • dplrA Lambda p q))
    ((sC • ((1 : Matrix (Fin N) (Fin N) ℂ) - (sC / 2) • dplrA Lambda p q)⁻¹).mulVec
      fun k => (B k : ℂ))
    (fun k => (C k : ℂ)) z hzL
    (cBilin z • woodburyX Lambda p q (gBilin sC z) fun k => (B k : ℂ))
    (htransfer.trans hBbar)
  rw [hsum, Matrix.mulVec_smul, Matrix.dotProduct_smul, smul_eq_mul]
  rw [dot_mulVec_star _ _ _ fun k => by simp [Complex.star_def, Complex.conj_ofReal]]
  rw [dot_woodburyX]
  simp only [K_gen_DPLR, Ct_of]

/-- Wherever `1 + o ≠ 0`, `K_gen_DPLR` equals its cleared-denominator form
`K_gen_DPLR_reg`: each Cauchy term `c/(g - Lambda i)` collapses to
`2 / phiDenom` once the factor `1 + o` is cancelled. -/
theorem K_gen_DPLR_eq_reg {N : ℕ} (Lambda p q B Ct : Fin N → ℂ) (sC o : ℂ)
    (h1 : (1 : ℂ) + o ≠ 0) :
    K_gen_DPLR Lambda p q B Ct sC o = K_gen_DPLR_reg Lambda p q B Ct sC o := by
  have hgl : ∀ i, gBilin sC o - Lambda i = phiDenom Lambda sC i o / (1 + o) := by
    intro i
    rw [gBilin, phiDenom]
    rw [eq_div_iff h1, sub_mul, mul_assoc, div_mul_cancel₀ _ h1]
  have hphi : ∀ i, cBilin o / (gBilin sC o - Lambda i) = 2 / phiDenom Lambda sC i o := by
    intro i
    rw [cBilin, hgl i, div_div_div_cancel_right₀ h1]
  have hc2 : (1 + o) / 2 * cBilin o = 1 := by
    rw [cBilin]
    field_simp
  have hkey : ∀ u v : Fin N → ℂ,
      cBilin o * ∑ i, star (u i) * v i / (gBilin sC o - Lambda i)
        = ∑ i, star (u i) * v i * (2 / phiDenom Lambda sC i o) := by
    intro u v
    rw [Finset.mul_sum]
    refine Finset.sum_congr rfl fun i _ => ?_
    rw [← hphi i]
    ring
  have hkey2 : ∀ u v : Fin N → ℂ,
      (∑ i, star (u i) * v i / (gBilin sC o - Lambda i))
        = (1 + o) / 2 * ∑ i, star (u i) * v i * (2 / phiDenom Lambda sC i o) := by
    intro u v
    rw [← hkey u v, ← mul_assoc, hc2, one_mul]
  have hassemble : ∀ c s00 s01 s10 s11 t00 t01 t10 t11 w : ℂ,
      c * s00 = t00 → c * s01 = t01 → s10 = w * t10 → s11 = w * t11 →
      c * (s00 - s01 * (1 / (1 + s11)) * s10)
        = t00 - t01 * (1 / (1 + w * t11)) * (w * t10) := by
    intro c s00 s01 s10 s11 t00 t01 t10 t11 w hc0 hc1 hw0 hw1
    rw [← hc0, ← hc1, ← hw0, ← hw1]
    ring
  simp only [K_gen_DPLR, K_gen_DPLR_reg, cauchy_dot]
  exact hassemble (cBilin o)
    (∑ i, star (Ct i) * B i / (gBilin sC o - Lambda i))
    (∑ i, star (Ct i) * p i / (gBilin sC o - Lambda i))
    (∑ i, star (q i) * B i / (gBilin sC o - Lambda i))
    (∑ i, star (q i) * p i / (gBilin sC o - Lambda i))
    (∑ i, star (Ct i) * B i * (2 / phiDenom Lambda sC i o))
    (∑ i, star (Ct i) * p i * (2 / phiDenom Lambda sC i o))
    (∑ i, star (q i) * B i * (2 / phiDenom Lambda sC i o))
    (∑ i, star (q i) * p i * (2 / phiDenom Lambda sC i o))
    ((1 + o) / 2) (hkey Ct B) (hkey Ct p) (hkey2 q B) (hkey2 q p)

/-- The singularity of `K_gen_DPLR` at `o = -1` is removable, with limit
`step/2 * sum_i conj(Ct i) * B i`: along any approach to `-1` through points
different from `-1`, the source-translated generating function tends to that
value.  This is the value the float program computes at the even-`L` sample
`exp(i*pi)`, which is close to but never equal to `-1`. -/
theorem K_gen_DPLR_tendsto_neg_one {N : ℕ} (Lambda p q B Ct : Fin N → ℂ) (sC : ℂ)
    (hsC : sC ≠ 0) :
    Filter.Tendsto (K_gen_DPLR Lambda p q B Ct sC)
      (nhdsWithin (-1) {z : ℂ | z ≠ -1})
      (nhds (sC / 2 * ∑ i, star (Ct i) * B i)) := by
  have hDcont : ∀ i : Fin N, Filter.Tendsto (fun o : ℂ => phiDenom Lambda sC i o)
      (nhds (-1)) (nhds (4 / sC)) := by
    intro i
    have hval : phiDenom Lambda sC i (-1) = 4 / sC := by
      rw [phiDenom]
      ring
    have hcont : ContinuousAt (fun o : ℂ => 2 / sC * (1 - o) - Lambda i * (1 + o)) (-1) := by
      fun_prop
    rw [← hval]
    exact hcont.tendsto
  have hDne : (4 : ℂ) / sC ≠ 0 := div_ne_zero (by norm_num) hsC
  have hterm : ∀ u v : Fin N → ℂ,
      Filter.Tendsto (fun o : ℂ => ∑ i, star (u i) * v i * (2 / phiDenom Lambda sC i o))
        (nhds (-1)) (nhds (∑ i, star (u i) * v i * (sC / 2))) := by
    intro u v
    have hlim : (∑ i, star (u i) * v i * ((2 : ℂ) / (4 / sC)))
        = ∑ i, star (u i) * v i * (sC / 2) := by
      refine Finset.sum_congr rfl fun i _ => ?_
      congr 1
      rw [div_div_eq_mul_div]
      ring
    rw [← hlim]
    exact tendsto_finset_sum _ fun i _ =>
      tendsto_const_nhds.mul (tendsto_const_nhds.div (hDcont i) hDne)
  have hw : Filter.Tendsto (fun o : ℂ => (1 + o) / 2) (nhds (-1 : ℂ)) (nhds 0) := by
    have hcont : ContinuousAt (fun o : ℂ => (1 + o) / 2) (-1) := by fun_prop
    have hv : ((1 : ℂ) + -1) / 2 = 0 := by norm_num
    rw [← hv]
    exact hcont.tendsto
  have hne1 : ((1 : ℂ) + 0 * ∑ i, star (q i) * p i * (sC / 2)) ≠ 0 := by
    simp
  have hreg : Filter.Tendsto (K_gen_DPLR_reg Lambda p q B Ct sC) (nhds (-1))
      (nhds ((∑ i, star (Ct i) * B i * (sC / 2)) -
        (∑ i, star (Ct i) * p i * (sC / 2)) *
          (1 / (1 + 0 * ∑ i, star (q i) * p i * (sC / 2))) *
          (0 * ∑ i, star (q i) * B i * (sC / 2)))) := by
    exact (hterm Ct B).sub (((hterm Ct p).mul
      (tendsto_const_nhds.div (tendsto_const_nhds.add (hw.mul (hterm q p))) hne1)).mul
      (hw.mul (hterm q B)))
  have hval : (∑ i, star (Ct i) * B i * (sC / 2)) -
      (∑ i, star (Ct i) * p i * (sC / 2)) *
        (1 / (1 + 0 * ∑ i, star (q i) * p i * (sC / 2))) *
        (0 * ∑ i, star (q i) * B i * (sC / 2))
      = sC / 2 * ∑ i, star (Ct i) * B i := by
    rw [← Finset.sum_mul]
    ring
  rw [hval] at hreg
  have hev : ∀ᶠ o in nhdsWithin (-1 : ℂ) {z : ℂ | z ≠ -1},
      K_gen_DPLR_reg Lambda p q B Ct sC o = K_gen_DPLR Lambda p q B Ct sC o := by
    filter_upwards [self_mem_nhdsWithin] with o ho
    have ho' : o ≠ -1 := ho
    have h1 : (1 : ℂ) + o ≠ 0 := fun hc => ho' (eq_neg_of_add_eq_zero_right hc)
    exact (K_gen_DPLR_eq_reg Lambda p q B Ct sC o h1).symm
  exact Filter.Tendsto.congr' hev (hreg.mono_left nhdsWithin_le_nhds)

/-- At the sample `z = -1` (present in the root scan exactly when `L` is
even), the modelled limit value `step/2 * sum_i conj(Ct i) * B i` equals the
truncated generating series of the naive kernel: the solution of
`(I + Abar) y = Bbar` is simply `(step/2) * B`, because
`I + Abar = 2 * (I - (step/2) A)^{-1}` under the bilinear discretization. -/
theorem K_gen_neg_one_sample {N L : ℕ} (Lambda p q : Fin N → ℂ) (B C : Fin N → ℝ)
    (sC : ℂ)
    (hdet : IsUnit ((1 : Matrix (Fin N) (Fin N) ℂ) - (sC / 2) • dplrA Lambda p q).det)
    (hL : (-1 : ℂ) ^ L = 1) :
    sC / 2 * ∑ i, star ((Ct_of (((1 : Matrix (Fin N) (Fin N) ℂ) -
            (sC / 2) • dplrA Lambda p q)⁻¹ *
          ((1 : Matrix (Fin N) (Fin N) ℂ) + (sC / 2) • dplrA Lambda p q))
        (fun k => (C k : ℂ)) L) i) * ((B i : ℂ))
      = ∑ l : Fin L,
          K_conv (((1 : Matrix (Fin N) (Fin N) ℂ) - (sC / 2) • dplrA Lambda p q)⁻¹ *
              ((1 : Matrix (Fin N) (Fin N) ℂ) + (sC / 2) • dplrA Lambda p q))
            ((sC • ((1 : Matrix (Fin N) (Fin N) ℂ) - (sC / 2) • dplrA Lambda p q)⁻¹).mulVec
              fun k => (B k : ℂ))
            (fun k => (C k : ℂ)) L l * (-1 : ℂ) ^ (l : ℕ) := by
  have key : ∀ W T Mi : Matrix (Fin N) (Fin N) ℂ, Mi * W = 1 →
      W + T = (2 : ℂ) • (1 : Matrix (Fin N) (Fin N) ℂ) →
      (1 : Matrix (Fin N) (Fin N) ℂ) - (-1 : ℂ) • (Mi * T) = (2 : ℂ) • Mi := by
    intro W T Mi hMW hWT
    rw [neg_smul, one_smul, sub_neg_eq_add]
    calc (1 : Matrix (Fin N) (Fin N) ℂ) + Mi * T = Mi * W + Mi * T := by rw [hMW]
      _ = Mi * (W + T) := by rw [Matrix.mul_add]
      _ = Mi * ((2 : ℂ) • (1 : Matrix (Fin N) (Fin N) ℂ)) := by rw [hWT]
      _ = (2 : ℂ) • Mi := by rw [Matrix.mul_smul, Matrix.mul_one]
  have hplus := key ((1 : Matrix (Fin N) (Fin N) ℂ) - (sC / 2) • dplrA Lambda p q)
    ((1 : Matrix (Fin N) (Fin N) ℂ) + (sC / 2) • dplrA Lambda p q)
    (((1 : Matrix (Fin N) (Fin N) ℂ) - (sC / 2) • dplrA Lambda p q)⁻¹)
    (Matrix.nonsing_inv_mul _ hdet) (by module)
  have hy : ((1 : Matrix (Fin N) (Fin N) ℂ) -
      (-1 : ℂ) • (((1 : Matrix (Fin N) (Fin N) ℂ) - (sC / 2) • dplrA Lambda p q)⁻¹ *
        ((1 : Matrix (Fin N) (Fin N) ℂ) + (sC / 2) • dplrA Lambda p q))).mulVec
          ((sC / 2) • fun k => (B k : ℂ))
      = (sC • ((1 : Matrix (Fin N) (Fin N) ℂ) - (sC / 2) • dplrA Lambda p q)⁻¹).mulVec
          fun k => (B k : ℂ) := by
    rw [hplus, Matrix.smul_mulVec_assoc, Matrix.mulVec_smul, smul_smul,
      Matrix.smul_mulVec_assoc]
    congr 1
    ring
  have hsum := kernel_gen_sum
    (((1 : Matrix (Fin N) (Fin N) ℂ) - (sC / 2) • dplrA Lambda p q)⁻¹ *
      ((1 : Matrix (Fin N) (Fin N) ℂ) + (sC / 2) • dplrA Lambda p q))
    ((sC • ((1 : Matrix (Fin N) (Fin N) ℂ) - (sC / 2) • dplrA Lambda p q)⁻¹).mulVec
      fun k => (B k : ℂ))
    (fun k => (C k : ℂ)) (-1 : ℂ) hL ((sC / 2) • fun k => (B k : ℂ)) hy
  rw [hsum, Matrix.mulVec_smul, Matrix.dotProduct_smul, smul_eq_mul]
  rw [dot_mulVec_star _ _ _ fun k => by simp [Complex.star_def, Complex.conj_ofReal]]
  simp only [Ct_of]

/-- C1: For every DPLR SSM `A = diag(Λ) - p q*` with real learned `B`, `C`,
every positive step with `I - (step/2)·A` invertible, every sequence length
`L` (even or odd), and non-degenerate samples (at each sampled root with
`1 + z ≠ 0`, no `g(z)` collides with an eigenvalue `Λ i` and the Woodbury
denominator `1 + k(q*, p)` is nonzero — the degeneracies the spec itself
flags): the fast path — `Ct` from the boundary correction, the generating
function sampled as the float program samples it (`K_gen_DPLR_sampled`,
which at a root with `1 + z = 0` takes the limit of `K_gen_DPLR` across its
removable singularity, theorem `K_gen_DPLR_tendsto_neg_one`), and
`convFromGen` — produces exactly the elementwise real part of the naive
oracle kernel `K[l] = C̄ Ā^l B̄`, and coincides with the naive kernel
outright at every index where that kernel is real (in particular everywhere,
for a real SSM).  Exact equality is within every tolerance. -/
theorem S4_fast_kernel_sampled_eq_naive {N L : ℕ} (Lambda p q : Fin N → ℂ)
    (B C : Fin N → ℝ) (step : ℝ) (hstep : 0 < step)
    (hdet : IsUnit ((1 : Matrix (Fin N) (Fin N) ℂ) -
        (((step : ℝ) : ℂ) / 2) • dplrA Lambda p q).det)
    (hpole : ∀ j : Fin L, (1 : ℂ) + rootOfUnity L (j : ℕ) ≠ 0 → ∀ i : Fin N,
      gBilin ((step : ℝ) : ℂ) (rootOfUnity L (j : ℕ)) ≠ Lambda i)
    (hwood : ∀ j : Fin L, (1 : ℂ) + rootOfUnity L (j : ℕ) ≠ 0 →
      (1 : ℂ) + cauchy_dot (fun k => star (q k) * p k)
          (gBilin ((step : ℝ) : ℂ) (rootOfUnity L (j : ℕ))) Lambda ≠ 0)
    (i : Fin L) :
    S4_fast_kernel_sampled Lambda p q B C step L i
        = (S4_naive_kernel Lambda p q B C step L i).re ∧
      ((S4_naive_kernel Lambda p q B C step L i).im = 0 →
        ((S4_fast_kernel_sampled Lambda p q B C step L i : ℝ) : ℂ)
          = S4_naive_kernel Lambda p q B C step L i) := by
  have hL : 0 < L := i.pos
  have hprim : IsPrimitiveRoot (zetaL L) L := by
    rw [zetaL]
    exact Complex.isPrimitiveRoot_exp L hL.ne'
  have hsC : ((step : ℝ) : ℂ) ≠ 0 := Complex.ofReal_ne_zero.mpr hstep.ne'
  have hgen : ∀ j : Fin L,
      K_gen_DPLR_sampled Lambda p q (fun k => (B k : ℂ))
          (Ct_of (((1 : Matrix (Fin N) (Fin N) ℂ) -
                (((step : ℝ) : ℂ) / 2) • dplrA Lambda p q)⁻¹ *
              ((1 : Matrix (Fin N) (Fin N) ℂ) +
                (((step : ℝ) : ℂ) / 2) • dplrA Lambda p q))
            (fun k => (C k : ℂ)) L) ((step : ℝ) : ℂ) (rootOfUnity L (j : ℕ))
        = ∑ l : Fin L,
            K_conv (((1 : Matrix (Fin N) (Fin N) ℂ) -
                  (((step : ℝ) : ℂ) / 2) • dplrA Lambda p q)⁻¹ *
                ((1 : Matrix (Fin N) (Fin N) ℂ) +
                  (((step : ℝ) : ℂ) / 2) • dplrA Lambda p q))
              ((((step : ℝ) : ℂ) • ((1 : Matrix (Fin N) (Fin N) ℂ) -
                  (((step : ℝ) : ℂ) / 2) • dplrA Lambda p q)⁻¹).mulVec
                fun k => (B k : ℂ))
              (fun k => (C k : ℂ)) L l * rootOfUnity L (j : ℕ) ^ (l : ℕ) := by
    intro j
    have hzL1 : rootOfUnity L (j : ℕ) ^ L = 1 := by
      rw [rootOfUnity_eq_pow, ← pow_mul, mul_comm, pow_mul, hprim.pow_eq_one, one_pow]
    by_cases hz : (1 : ℂ) + rootOfUnity L (j : ℕ) = 0
    · have hzeq : rootOfUnity L (j : ℕ) = -1 := eq_neg_of_add_eq_zero_right hz
      rw [hzeq] at hzL1
      simp only [K_gen_DPLR_sampled]
      rw [if_pos hz, hzeq]
      exact K_gen_neg_one_sample Lambda p q B C ((step : ℝ) : ℂ) hdet hzL1
    · simp only [K_gen_DPLR_sampled]
      rw [if_neg hz]
      exact K_gen_DPLR_samples Lambda p q B C ((step : ℝ) : ℂ) (rootOfUnity L (j : ℕ))
        hsC hz hzL1 hdet (hpole j hz) (hwood j hz)
  have h1 : S4_fast_kernel_sampled Lambda p q B C step L i
      = (S4_naive_kernel Lambda p q B C step L i).re :=
    (convFromGen_eq_of_samples _ _ hgen i).1
  refine ⟨h1, fun him => ?_⟩
  apply Complex.ext
  · rw [Complex.ofReal_re, h1]
  · rw [Complex.ofReal_im, him]

/-- Witness for `S4_fast_kernel_sampled_eq_naive` at an even length:
`N = 1`, `L = 2`, `Λ = -1`, `p = q = 0`, `B = C = 1`, `step = 1`.  All
hypotheses hold: the sampled roots are `1` and `-1`; at the root `1` one has
`g(1) = 0 ≠ -1` and Woodbury denominator `1`, and at the root `-1` the
non-degeneracy hypotheses are not demanded. -/
theorem S4_fast_kernel_sampled_eq_naive_witness :
    ((0 : ℝ) < 1 ∧
      IsUnit ((1 : Matrix (Fin 1) (Fin 1) ℂ) -
          (((1 : ℝ) : ℂ) / 2) • dplrA (fun _ : Fin 1 => -1) (fun _ => 0) (fun _ => 0)).det ∧
      (∀ j : Fin 2, (1 : ℂ) + rootOfUnity 2 (j : ℕ) ≠ 0 → ∀ i : Fin 1,
        gBilin ((1 : ℝ) : ℂ) (rootOfUnity 2 (j : ℕ)) ≠ (fun _ : Fin 1 => (-1 : ℂ)) i) ∧
      (∀ j : Fin 2, (1 : ℂ) + rootOfUnity 2 (j : ℕ) ≠ 0 →
        (1 : ℂ) + cauchy_dot (fun k => star ((fun _ : Fin 1 => (0 : ℂ)) k) *
            (fun _ : Fin 1 => (0 : ℂ)) k)
          (gBilin ((1 : ℝ) : ℂ) (rootOfUnity 2 (j : ℕ))) (fun _ : Fin 1 => -1) ≠ 0)) ∧
      (S4_fast_kernel_sampled (fun _ : Fin 1 => -1) (fun _ => 0) (fun _ => 0) (fun _ => 1)
          (fun _ => 1) 1 2 1
        = (S4_naive_kernel (fun _ : Fin 1 => -1) (fun _ => 0) (fun _ => 0) (fun _ => 1)
            (fun _ => 1) 1 2 1).re ∧
      ((S4_naive_kernel (fun _ : Fin 1 => -1) (fun _ => 0) (fun _ => 0) (fun _ => 1)
            (fun _ => 1) 1 2 1).im = 0 →
        ((S4_fast_kernel_sampled (fun _ : Fin 1 => -1) (fun _ => 0) (fun _ => 0) (fun _ => 1)
            (fun _ => 1) 1 2 1 : ℝ) : ℂ)
          = S4_naive_kernel (fun _ : Fin 1 => -1) (fun _ => 0) (fun _ => 0) (fun _ => 1)
              (fun _ => 1) 1 2 1)) := by
  have hr0 : rootOfUnity 2 0 = 1 := by
    simp [rootOfUnity]
  have hr1 : rootOfUnity 2 1 = -1 := by
    rw [rootOfUnity]
    have harg : (2 * (Real.pi : ℂ) * Complex.I / ((2 : ℕ) : ℂ) * ((1 : ℕ) : ℂ))
        = Real.pi * Complex.I := by
      push_cast
      ring
    rw [harg, Complex.exp_pi_mul_I]
  have h1 : (0 : ℝ) < 1 := by norm_num
  have h2 : IsUnit ((1 : Matrix (Fin 1) (Fin 1) ℂ) -
      (((1 : ℝ) : ℂ) / 2) • dplrA (fun _ : Fin 1 => -1) (fun _ => 0) (fun _ => 0)).det := by
    have hdet32 : ((1 : Matrix (Fin 1) (Fin 1) ℂ) -
        (((1 : ℝ) : ℂ) / 2) • dplrA (fun _ : Fin 1 => -1) (fun _ => 0) (fun _ => 0)).det
        = 3 / 2 := by
      rw [Matrix.det_fin_one]
      simp [dplrA, Matrix.sub_apply, Matrix.smul_apply, Matrix.one_apply,
        Matrix.diagonal_apply_eq, Matrix.of_apply, smul_eq_mul]
      norm_num
    rw [hdet32]
    exact isUnit_iff_ne_zero.mpr (by norm_num)
  have h3 : ∀ j : Fin 2, (1 : ℂ) + rootOfUnity 2 (j : ℕ) ≠ 0 → ∀ i : Fin 1,
      gBilin ((1 : ℝ) : ℂ) (rootOfUnity 2 (j : ℕ)) ≠ (fun _ : Fin 1 => (-1 : ℂ)) i := by
    intro j hne i
    by_cases hj : (j : ℕ) = 0
    · rw [hj, hr0, gBilin]
      norm_num
    · have hj1 : (j : ℕ) = 1 := by omega
      rw [hj1, hr1] at hne
      exact absurd (by ring) hne
  have h4 : ∀ j : Fin 2, (1 : ℂ) + rootOfUnity 2 (j : ℕ) ≠ 0 →
      (1 : ℂ) + cauchy_dot (fun k => star ((fun _ : Fin 1 => (0 : ℂ)) k) *
          (fun _ : Fin 1 => (0 : ℂ)) k)
        (gBilin ((1 : ℝ) : ℂ) (rootOfUnity 2 (j : ℕ))) (fun _ : Fin 1 => -1) ≠ 0 := by
    intro j hne
    simp [cauchy_dot]
  exact ⟨⟨h1, h2, h3, h4⟩,
    S4_fast_kernel_sampled_eq_naive (fun _ : Fin 1 => -1) (fun _ => 0) (fun _ => 0)
      (fun _ => 1) (fun _ => 1) 1 h1 h2 h3 h4 1⟩

end S4
